import Mathlib

/-!
Verification of the feature-preference data pipeline of the
Netflix-Recommendation-Engine repository.

The repository's notebooks build a movie×feature one-hot matrix and a
user×feature preference matrix from preprocessed pickles, binarize star
ratings, load raw Netflix Prize rating files for a sampled set of users,
rank pairwise correlations, and select a K-Means cluster count by first
argmax of silhouette scores.  This file gives a shallow embedding of those
constructions and proves the stated properties about them.

Python dictionaries are embedded as association lists with pairwise
distinct keys, pandas data frames indexed by labels as total functions
from labels built by folding the notebook's fill loops, and Python
strings as `List Char` so that every definition evaluates by kernel
reduction on concrete inputs.
-/

namespace NetflixSpec

/-! ### Movie feature matrix

Embedding of the construction in the classification and heatmap
notebooks:

    movie_feature_matrix = pd.DataFrame(0, index=movie_ids, columns=feature_ids)
    for movie_id, features in movie_features.items():
        movie_feature_matrix.loc[movie_id, features] = 1
-/

/-- One iteration of the fill loop: set every listed feature column of the
movie's row to `1`, leaving all other entries of the matrix unchanged. -/
def setRowOnes {α : Type} [DecidableEq α] (M : α → Nat → Nat) (p : α × List Nat) :
    α → Nat → Nat :=
  fun m f => if m = p.1 ∧ f ∈ p.2 then 1 else M m f

/-- The movie feature matrix: a zero matrix filled row by row from the
`movie_features` dictionary (an association list of movie id to feature ids). -/
def movie_feature_matrix {α : Type} [DecidableEq α]
    (movie_features : List (α × List Nat)) : α → Nat → Nat :=
  movie_features.foldl setRowOnes (fun _ _ => 0)

/-! ### Binarized rating labels

Embedding of `ratings_df['label'] = ratings_df['rating'].apply(lambda x: 1 if x >= 4 else 0)`.
-/

/-- The binarized classification label of a star rating. -/
def binarize_label (r : Int) : Nat :=
  if 4 ≤ r then 1 else 0

/-! ### Feature retention threshold -/

/-- The occurrence threshold used throughout the notebooks. -/
def MIN_OCCURRENCES : Nat := 20

/-- Number of movies of the `movie_features` dictionary whose feature list
contains the feature `f`. -/
def featureOccurrenceCount {α : Type} (movie_features : List (α × List Nat))
    (f : Nat) : Nat :=
  (movie_features.filter (fun p => decide (f ∈ p.2))).length

/-- Modelled from the spec: the ETL step that builds
`feature_mapping_{MIN_OCCURRENCES}.pickle` is not among the provided
sources; per the spec, a feature is retained only if it occurs in at least
`MIN_OCCURRENCES = 20` movies.  The retained feature set keeps exactly the
candidate features meeting the threshold. -/
def retainedFeatures {α : Type} (movie_features : List (α × List Nat))
    (candidate_features : List Nat) : List Nat :=
  candidate_features.filter
    (fun f => decide (MIN_OCCURRENCES ≤ featureOccurrenceCount movie_features f))

/-! ### User feature matrix

Embedding of the construction for sampled users:

    user_feature_matrix = pd.DataFrame(-1, index=sampled_user_ids, columns=feature_ids)
    for user_id, user_data in sampled_user_profiles.items():
        for feature_id, preference in user_data['feature_preferences'].items():
            user_feature_matrix.loc[user_id, feature_id] = preference
-/

/-- One iteration of the inner fill loop: write one preference value into the
row of user `u0`. -/
def setPrefEntry {α : Type} [DecidableEq α] (u0 : α) (M : α → Nat → ℚ)
    (q : Nat × ℚ) : α → Nat → ℚ :=
  fun u f => if u = u0 ∧ f = q.1 then q.2 else M u f

/-- The user×feature preference matrix: a `-1`-filled matrix whose rows are
then filled from each sampled user's preference dictionary. -/
def user_feature_matrix {α : Type} [DecidableEq α]
    (profiles : List (α × List (Nat × ℚ))) : α → Nat → ℚ :=
  profiles.foldl (fun M p => p.2.foldl (setPrefEntry p.1) M) (fun _ _ => -1)

/-! ### Rating file loader

Embedding of the loop over `rating_files` in the classification notebook.
Python strings are embedded as `List Char` and each rating file as its list
of lines, so that the loader evaluates by kernel reduction.
-/

/-- A Python string, embedded as its list of characters. -/
abbrev PyStr := List Char

/-- Python `str.strip()`: drop leading and trailing whitespace. -/
def pyStrip (s : PyStr) : PyStr :=
  ((s.dropWhile Char.isWhitespace).reverse.dropWhile Char.isWhitespace).reverse

/-- Python `str.split(sep)` for a one-character separator. -/
def pySplit (sep : Char) : PyStr → List PyStr
  | [] => [[]]
  | c :: cs =>
    if c = sep then [] :: pySplit sep cs
    else
      match pySplit sep cs with
      | [] => [[c]]
      | r :: rs => (c :: r) :: rs

/-- Numeric value of a nonempty all-digit string, `none` otherwise. -/
def digitsVal? (ds : PyStr) : Option Nat :=
  if ds.isEmpty then none
  else if ds.all Char.isDigit then
    some (ds.foldl (fun n c => n * 10 + (c.toNat - 48)) 0)
  else none

/-- Python `int(s)`: surrounding whitespace is stripped, then an optional
sign followed by decimal digits; `none` models the `ValueError` raised on
any other content. -/
def pyInt? (s : PyStr) : Option Int :=
  match pyStrip s with
  | '-' :: ds => (digitsVal? ds).map (fun n => -(n : Int))
  | '+' :: ds => (digitsVal? ds).map (fun n => (n : Int))
  | ds => (digitsVal? ds).map (fun n => (n : Int))

/-- One dictionary appended to `ratings_data`. -/
structure RatingRow where
  movie_id : PyStr
  user_id : PyStr
  rating : Int
  date : PyStr
  deriving DecidableEq

/-- Inner loop over the rating lines of a selected movie file: split each
line on commas, skip it unless it has exactly three fields, keep only
sampled users, parse the rating with `int`, and stop once the entry cap is
reached.  The result carries the accumulated rows, the updated entry count
and whether the cap was hit (the `break`); `none` models the uncaught
`ValueError` of `int(rating)`. -/
def processLines (mid : PyStr) (users : List PyStr) (maxEntries : Nat) :
    List PyStr → List RatingRow → Nat → Option (List RatingRow × Nat × Bool)
  | [], acc, total => some (acc, total, false)
  | line :: rest, acc, total =>
    if (pySplit ',' (pyStrip line)).length = 3 then
      if (pySplit ',' (pyStrip line)).getD 0 [] ∈ users then
        match pyInt? ((pySplit ',' (pyStrip line)).getD 1 []) with
        | none => none
        | some r =>
          if maxEntries ≤ total + 1 then
            some (acc ++ [⟨mid, (pySplit ',' (pyStrip line)).getD 0 [], r,
              (pySplit ',' (pyStrip line)).getD 2 []⟩], total + 1, true)
          else
            processLines mid users maxEntries rest
              (acc ++ [⟨mid, (pySplit ',' (pyStrip line)).getD 0 [], r,
                (pySplit ',' (pyStrip line)).getD 2 []⟩]) (total + 1)
      else processLines mid users maxEntries rest acc total
    else processLines mid users maxEntries rest acc total

/-- Outer loop over the rating files, each file given as its list of lines.
An empty file is skipped; otherwise the first line is stripped and its
trailing colon removed to obtain the movie id, and only files whose movie id
lies in the movie set are processed. -/
def loadRatings (movies users : List PyStr) (maxEntries : Nat) :
    List (List PyStr) → List RatingRow → Nat → Option (List RatingRow)
  | [], acc, _ => some acc
  | ([]) :: files, acc, total => loadRatings movies users maxEntries files acc total
  | (firstLine :: rest) :: files, acc, total =>
    if (pyStrip firstLine).dropLast ∈ movies then
      match processLines ((pyStrip firstLine).dropLast) users maxEntries
          rest acc total with
      | none => none
      | some (acc', total', stopped) =>
        if stopped then some acc'
        else loadRatings movies users maxEntries files acc' total'
    else loadRatings movies users maxEntries files acc total

/-- A row whose user id is sampled and whose fields come from splitting a
three-field line, the rating being the Python `int` of the second field. -/
def rowWellFormed (users : List PyStr) (r : RatingRow) : Prop :=
  r.user_id ∈ users
  ∧ ∃ line : PyStr,
      (pySplit ',' (pyStrip line)).length = 3
      ∧ r.user_id = (pySplit ',' (pyStrip line)).getD 0 []
      ∧ pyInt? ((pySplit ',' (pyStrip line)).getD 1 []) = some r.rating
      ∧ r.date = (pySplit ',' (pyStrip line)).getD 2 []

/-- Totality of the rating loader, as the spec claims it: on arbitrary file
contents the loader produces a row list without raising. -/
def loaderTotal : Prop :=
  ∀ (movies users : List PyStr) (maxEntries : Nat) (files : List (List PyStr)),
    ∃ rows, loadRatings movies users maxEntries files [] 0 = some rows

/-- Absence of silent record discarding, as the spec claims it: whenever the
loader succeeds on a single file, every rating line of that file contributed
a row. -/
def loaderDiscardsNoRecord : Prop :=
  ∀ (movies users : List PyStr) (maxEntries : Nat) (firstLine : PyStr)
    (rest : List PyStr) (rows : List RatingRow),
    loadRatings movies users maxEntries [firstLine :: rest] [] 0 = some rows →
    rows.length = rest.length

/-- Embedding of `np.random.choice(user_ids, size=k, replace=False)`: a draw
without replacement selects pairwise distinct positions of the list and
returns the elements at those positions. -/
def npChoiceNoReplace (xs : List PyStr) (positions : List (Fin xs.length)) :
    List PyStr :=
  positions.map xs.get

/-- Fixture list of 30 distinct user ids for the C5 witness. -/
def sampleUserIds : List PyStr :=
  (List.range 30).map (fun i => [Char.ofNat (65 + i)])

/-! ### K-Means cluster count selection

Embedding of `best_k = k_range[np.argmax(silhouette_scores)]` with
`k_range = range(2, 21)` from the clustering notebooks, where
`silhouette_scores` lists `silhouette_score` for each k of the grid.
-/

/-- Embedding of `np.argmax`: index of the first occurrence of the maximum
value (`0` on the empty list, which numpy rejects). -/
def npArgmax : List ℚ → Nat
  | [] => 0
  | x :: xs => if xs.all (fun y => decide (y ≤ x)) then 0 else npArgmax xs + 1

/-- The cluster count grid `range(2, 21)`, that is `2..20`. -/
def kRange : List Nat := List.range' 2 19

/-- The selected cluster count `k_range[np.argmax(silhouette_scores)]`,
parametric in the silhouette score of each candidate k. -/
def best_k (sil : Nat → ℚ) : Nat :=
  kRange.getD (npArgmax (kRange.map sil)) 0

/-! ### Correlation pair ranking

Embedding of `get_redundant_pairs`, `get_top_correlations` and
`get_bottom_correlations` from the heatmap notebook.  The correlation matrix
is a square pandas frame whose index equals its columns; its `unstack` is
the list of all label pairs with the corresponding entries, `drop` removes
the diagonal and lower-triangle label pairs, and `sort_values` orders the
remaining entries by value.
-/

/-- Embedding of `get_redundant_pairs`: the diagonal and lower-triangle
label pairs `(cols[i], cols[j])` for `j ≤ i`. -/
def get_redundant_pairs {α : Type} [Inhabited α] (cols : List α) : List (α × α) :=
  (List.range cols.length).flatMap (fun i =>
    (List.range (i + 1)).map (fun j => (cols.getD i default, cols.getD j default)))

/-- Embedding of `corr_matrix.unstack()`: all label pairs with their matrix
entries, the first label of a pair being the column. -/
def unstack {α : Type} (cols : List α) (corr : α → α → ℚ) : List ((α × α) × ℚ) :=
  (cols ×ˢ cols).map (fun p => (p, corr p.2 p.1))

/-- The entries surviving `au_corr.drop(labels=labels_to_drop)`. -/
def keptEntries {α : Type} [DecidableEq α] [Inhabited α] (cols : List α)
    (corr : α → α → ℚ) : List ((α × α) × ℚ) :=
  (unstack cols corr).filter (fun e => decide (e.1 ∉ get_redundant_pairs cols))

/-- Ordering of entries by decreasing value, `sort_values(ascending=False)`. -/
def entryDesc {α : Type} : ((α × α) × ℚ) → ((α × α) × ℚ) → Prop :=
  fun a b => b.2 ≤ a.2

/-- Ordering of entries by increasing value, `sort_values()`. -/
def entryAsc {α : Type} : ((α × α) × ℚ) → ((α × α) × ℚ) → Prop :=
  fun a b => a.2 ≤ b.2

instance {α : Type} : DecidableRel (@entryDesc α) :=
  fun a b => inferInstanceAs (Decidable (b.2 ≤ a.2))

instance {α : Type} : DecidableRel (@entryAsc α) :=
  fun a b => inferInstanceAs (Decidable (a.2 ≤ b.2))

instance {α : Type} : IsTotal ((α × α) × ℚ) (@entryDesc α) :=
  ⟨fun a b => le_total b.2 a.2⟩

instance {α : Type} : IsTotal ((α × α) × ℚ) (@entryAsc α) :=
  ⟨fun a b => le_total a.2 b.2⟩

instance {α : Type} : IsTrans ((α × α) × ℚ) (@entryDesc α) :=
  ⟨fun _ _ _ h1 h2 => le_trans h2 h1⟩

instance {α : Type} : IsTrans ((α × α) × ℚ) (@entryAsc α) :=
  ⟨fun _ _ _ h1 h2 => le_trans h1 h2⟩

/-- Embedding of `get_top_correlations`: drop the redundant pairs, sort by
decreasing value, take the first `n` entries. -/
def get_top_correlations {α : Type} [DecidableEq α] [Inhabited α]
    (cols : List α) (corr : α → α → ℚ) (n : Nat) : List ((α × α) × ℚ) :=
  (List.insertionSort entryDesc (keptEntries cols corr)).take n

/-- Embedding of `get_bottom_correlations`: drop the redundant pairs, sort
by increasing value, take the first `n` entries. -/
def get_bottom_correlations {α : Type} [DecidableEq α] [Inhabited α]
    (cols : List α) (corr : α → α → ℚ) (n : Nat) : List ((α × α) × ℚ) :=
  (List.insertionSort entryAsc (keptEntries cols corr)).take n

/-- Constant correlation function for the C6 witness. -/
def corrEx : Nat → Nat → ℚ := fun _ _ => 1

/-- Silhouette score fixture for the C10 witness: k = 7 scores highest. -/
def silEx : Nat → ℚ := fun k => if k = 7 then 1 else 0

theorem setRowOnes_ne {α : Type} [DecidableEq α] (M : α → Nat → Nat)
    (p : α × List Nat) (m : α) (f : Nat) (h : m ≠ p.1) :
    setRowOnes M p m f = M m f := by
  simp [setRowOnes, h]

/-- Rows whose movie id is not a key of the remaining dictionary entries are
not modified by the fill loop. -/
theorem foldl_setRowOnes_not_key {α : Type} [DecidableEq α]
    (l : List (α × List Nat)) (M : α → Nat → Nat) (m : α) (f : Nat)
    (h : m ∉ l.map Prod.fst) :
    l.foldl setRowOnes M m f = M m f := by
  induction l generalizing M with
  | nil => rfl
  | cons p l ih =>
    simp only [List.map_cons, List.mem_cons, not_or] at h
    rw [List.foldl_cons, ih _ h.2, setRowOnes_ne _ _ _ _ h.1]

/-- On the row of a dictionary entry `(m, fs)`, the fill loop produces `1`
at columns listed in `fs` and otherwise keeps the initial matrix. -/
theorem foldl_setRowOnes_key {α : Type} [DecidableEq α]
    (l : List (α × List Nat)) (M : α → Nat → Nat) (m : α) (fs : List Nat)
    (hnd : (l.map Prod.fst).Nodup) (hm : (m, fs) ∈ l) (f : Nat) :
    l.foldl setRowOnes M m f = if f ∈ fs then 1 else M m f := by
  induction l generalizing M with
  | nil => cases hm
  | cons p l ih =>
    rw [List.map_cons, List.nodup_cons] at hnd
    rw [List.foldl_cons]
    rcases List.mem_cons.1 hm with h | h
    · subst h
      rw [foldl_setRowOnes_not_key _ _ _ _ hnd.1]
      simp [setRowOnes]
    · have hne : m ≠ p.1 := by
        intro hcontra
        exact hnd.1 (hcontra ▸ List.mem_map_of_mem Prod.fst h)
      rw [ih _ hnd.2 h, setRowOnes_ne _ _ _ _ hne]

/-- The fill loop preserves the invariant that every entry is `0` or `1`. -/
theorem foldl_setRowOnes_zero_one {α : Type} [DecidableEq α]
    (l : List (α × List Nat)) (M : α → Nat → Nat)
    (hM : ∀ m f, M m f = 0 ∨ M m f = 1) (m : α) (f : Nat) :
    l.foldl setRowOnes M m f = 0 ∨ l.foldl setRowOnes M m f = 1 := by
  induction l generalizing M with
  | nil => exact hM m f
  | cons p l ih =>
    rw [List.foldl_cons]
    refine ih _ fun m' f' => ?_
    unfold setRowOnes
    split
    · exact Or.inr rfl
    · exact hM m' f'

/-- C1: the movie feature matrix is a one-hot encoding of movies by retained
features: for every movie id `m` in the `movie_features` dictionary and every
feature id `f` of the feature mapping, the entry at `(m, f)` is `1` when `f`
occurs in `movie_features[m]` and `0` otherwise, and every entry of the matrix
is either `0` or `1`. -/
theorem movie_feature_matrix_one_hot {α : Type} [DecidableEq α]
    (movie_features : List (α × List Nat)) (feature_ids : List Nat)
    (hnd : (movie_features.map Prod.fst).Nodup)
    (m : α) (fs : List Nat) (hm : (m, fs) ∈ movie_features)
    (f : Nat) (hf : f ∈ feature_ids) :
    (f ∈ fs → movie_feature_matrix movie_features m f = 1)
    ∧ (f ∉ fs → movie_feature_matrix movie_features m f = 0)
    ∧ ∀ (m' : α) (f' : Nat),
        movie_feature_matrix movie_features m' f' = 0
        ∨ movie_feature_matrix movie_features m' f' = 1 := by
  unfold movie_feature_matrix
  refine ⟨?_, ?_, ?_⟩
  · intro hin
    rw [foldl_setRowOnes_key _ _ _ _ hnd hm f, if_pos hin]
  · intro hout
    rw [foldl_setRowOnes_key _ _ _ _ hnd hm f, if_neg hout]
  · intro m' f'
    exact foldl_setRowOnes_zero_one _ _ (fun _ _ => Or.inl rfl) m' f'

/-- Witness for C1 on a concrete two-movie dictionary. -/
theorem movie_feature_matrix_one_hot_witness :
    ((([('a', [0, 2]), ('b', [1])] : List (Char × List Nat)).map Prod.fst).Nodup
      ∧ (('a', [0, 2]) ∈ ([('a', [0, 2]), ('b', [1])] : List (Char × List Nat)))
      ∧ (2 : Nat) ∈ [0, 1, 2])
    ∧ ((2 ∈ [0, 2] → movie_feature_matrix [('a', [0, 2]), ('b', [1])] 'a' 2 = 1)
      ∧ (2 ∉ [0, 2] → movie_feature_matrix [('a', [0, 2]), ('b', [1])] 'a' 2 = 0)
      ∧ ∀ (m' : Char) (f' : Nat),
          movie_feature_matrix [('a', [0, 2]), ('b', [1])] m' f' = 0
          ∨ movie_feature_matrix [('a', [0, 2]), ('b', [1])] m' f' = 1) :=
  ⟨⟨by decide, by decide, by decide⟩,
    movie_feature_matrix_one_hot [('a', [0, 2]), ('b', [1])] [0, 1, 2]
      (by decide) 'a' [0, 2] (by decide) 2 (by decide)⟩

/-- C2: a rating counts as high exactly when it is 4 or 5 stars and low
exactly when it is 1, 2 or 3 stars: for every integer rating in `1..5` the
binarized label is `1` iff the rating is at least `4`, and `0` iff it is at
most `3`. -/
theorem binarize_label_spec (r : Int) (h1 : 1 ≤ r) (h5 : r ≤ 5) :
    (binarize_label r = 1 ↔ 4 ≤ r) ∧ (binarize_label r = 0 ↔ r ≤ 3) := by
  unfold binarize_label
  constructor
  · constructor
    · intro h
      by_contra hlt
      rw [if_neg hlt] at h
      exact absurd h (by decide)
    · intro h
      rw [if_pos h]
  · constructor
    · intro h
      by_contra hgt
      have h4 : 4 ≤ r := by omega
      rw [if_pos h4] at h
      exact absurd h (by decide)
    · intro h
      have h4 : ¬ 4 ≤ r := by omega
      rw [if_neg h4]

/-- Witness for C2 at the concrete rating 4. -/
theorem binarize_label_spec_witness :
    ((1 : Int) ≤ 4 ∧ (4 : Int) ≤ 5)
    ∧ ((binarize_label 4 = 1 ↔ (4 : Int) ≤ 4) ∧ (binarize_label 4 = 0 ↔ (4 : Int) ≤ 3)) :=
  ⟨⟨by decide, by decide⟩, binarize_label_spec 4 (by decide) (by decide)⟩

/-- C3: every feature retained in the feature mapping occurs in at least
`MIN_OCCURRENCES = 20` movies of the `movie_features` dictionary. -/
theorem retainedFeatures_min_occurrences {α : Type}
    (movie_features : List (α × List Nat)) (candidate_features : List Nat)
    (f : Nat) (hf : f ∈ retainedFeatures movie_features candidate_features) :
    20 ≤ featureOccurrenceCount movie_features f := by
  have h := (List.mem_filter.1 hf).2
  have h20 : MIN_OCCURRENCES ≤ featureOccurrenceCount movie_features f :=
    of_decide_eq_true h
  exact h20

/-- Witness for C3 on a dictionary of 20 movies all carrying feature 0. -/
theorem retainedFeatures_min_occurrences_witness :
    (0 ∈ retainedFeatures ((List.range 20).map (fun i => (i, [0]))) [0, 1])
    ∧ 20 ≤ featureOccurrenceCount ((List.range 20).map (fun i => (i, [0]))) 0 :=
  ⟨by decide,
    retainedFeatures_min_occurrences ((List.range 20).map (fun i => (i, [0])))
      [0, 1] 0 (by decide)⟩

/-- The inner fill loop does not modify rows of other users. -/
theorem foldl_setPrefEntry_ne {α : Type} [DecidableEq α] (u0 : α)
    (prefs : List (Nat × ℚ)) (M : α → Nat → ℚ) (u : α) (f : Nat) (h : u ≠ u0) :
    prefs.foldl (setPrefEntry u0) M u f = M u f := by
  induction prefs generalizing M with
  | nil => rfl
  | cons q rest ih =>
    rw [List.foldl_cons, ih]
    simp [setPrefEntry, h]

/-- On the row of user `u0`, the inner fill loop realizes dictionary lookup
with the initial matrix as the default. -/
theorem foldl_setPrefEntry_key {α : Type} [DecidableEq α] (u0 : α)
    (prefs : List (Nat × ℚ)) (M : α → Nat → ℚ) (f : Nat)
    (hnd : (prefs.map Prod.fst).Nodup) :
    prefs.foldl (setPrefEntry u0) M u0 f =
      ((prefs.find? (fun q => decide (q.1 = f))).map Prod.snd).getD (M u0 f) := by
  induction prefs generalizing M with
  | nil => rfl
  | cons q rest ih =>
    rw [List.map_cons, List.nodup_cons] at hnd
    rw [List.foldl_cons, ih _ hnd.2]
    by_cases hq : q.1 = f
    · have hnone : rest.find? (fun q' => decide (q'.1 = f)) = none := by
        rw [List.find?_eq_none]
        intro x hx
        simp only [decide_eq_true_eq]
        intro hxf
        exact hnd.1 (hq ▸ hxf ▸ List.mem_map_of_mem Prod.fst hx)
      rw [hnone]
      have hfind : List.find? (fun q' => decide (q'.1 = f)) (q :: rest) = some q := by
        rw [List.find?_cons, decide_eq_true hq]
      rw [hfind]
      simp [setPrefEntry, hq]
    · have hfind : List.find? (fun q' => decide (q'.1 = f)) (q :: rest) =
          rest.find? (fun q' => decide (q'.1 = f)) := by
        rw [List.find?_cons, decide_eq_false hq]
      have hstep : setPrefEntry u0 M q u0 f = M u0 f := by
        have hne : ¬ f = q.1 := fun hh => hq hh.symm
        simp [setPrefEntry, hne]
      rw [hfind, hstep]

/-- With pairwise distinct preference keys, dictionary lookup finds exactly
the stored pair. -/
theorem find?_eq_some_of_mem (prefs : List (Nat × ℚ)) (f : Nat) (v : ℚ)
    (hnd : (prefs.map Prod.fst).Nodup) (hmem : (f, v) ∈ prefs) :
    prefs.find? (fun q => decide (q.1 = f)) = some (f, v) := by
  induction prefs with
  | nil => cases hmem
  | cons q rest ih =>
    rw [List.map_cons, List.nodup_cons] at hnd
    rcases List.mem_cons.1 hmem with h | h
    · rw [← h, List.find?_cons, decide_eq_true rfl]
    · have hne : q.1 ≠ f := by
        intro hcontra
        refine hnd.1 ?_
        rw [hcontra]
        exact (show f = (f, v).1 from rfl) ▸ List.mem_map_of_mem Prod.fst h
      rw [List.find?_cons, decide_eq_false hne]
      exact ih hnd.2 h

/-- The outer fill loop does not modify rows of users that are not keys of
the remaining profile entries. -/
theorem foldl_outer_not_key {α : Type} [DecidableEq α]
    (l : List (α × List (Nat × ℚ))) (M : α → Nat → ℚ) (u : α) (f : Nat)
    (h : u ∉ l.map Prod.fst) :
    l.foldl (fun M' p => p.2.foldl (setPrefEntry p.1) M') M u f = M u f := by
  induction l generalizing M with
  | nil => rfl
  | cons p l ih =>
    simp only [List.map_cons, List.mem_cons, not_or] at h
    rw [List.foldl_cons, ih _ h.2]
    exact foldl_setPrefEntry_ne _ _ _ _ _ h.1

/-- C4: the user×feature preference matrix is totally defined with a `-1`
sentinel: for every sampled user `u` and feature id `f` of the feature
mapping, the entry at `(u, f)` equals the stored preference value when `f` is
a key of that user's preference dictionary and `-1` otherwise. -/
theorem user_feature_matrix_spec {α : Type} [DecidableEq α]
    (profiles : List (α × List (Nat × ℚ))) (feature_ids : List Nat)
    (hnd : (profiles.map Prod.fst).Nodup)
    (u : α) (prefs : List (Nat × ℚ)) (hu : (u, prefs) ∈ profiles)
    (hpnd : (prefs.map Prod.fst).Nodup)
    (f : Nat) (hf : f ∈ feature_ids) :
    (∀ v : ℚ, (f, v) ∈ prefs → user_feature_matrix profiles u f = v)
    ∧ (f ∉ prefs.map Prod.fst → user_feature_matrix profiles u f = -1) := by
  have hmain : user_feature_matrix profiles u f =
      ((prefs.find? (fun q => decide (q.1 = f))).map Prod.snd).getD (-1) := by
    unfold user_feature_matrix
    have haux : ∀ (l : List (α × List (Nat × ℚ))) (M : α → Nat → ℚ),
        ((l.map Prod.fst).Nodup) → (u, prefs) ∈ l →
        l.foldl (fun M' p => p.2.foldl (setPrefEntry p.1) M') M u f =
          ((prefs.find? (fun q => decide (q.1 = f))).map Prod.snd).getD (M u f) := by
      intro l
      induction l with
      | nil => intro M _ hmem; cases hmem
      | cons p rest ih =>
        intro M hnd' hmem
        rw [List.map_cons, List.nodup_cons] at hnd'
        rw [List.foldl_cons]
        rcases List.mem_cons.1 hmem with h | h
        · subst h
          rw [foldl_outer_not_key _ _ _ _ hnd'.1]
          exact foldl_setPrefEntry_key _ _ _ _ hpnd
        · have hne : u ≠ p.1 := by
            intro hcontra
            exact hnd'.1 (hcontra ▸ List.mem_map_of_mem Prod.fst h)
          rw [ih _ hnd'.2 h, foldl_setPrefEntry_ne _ _ _ _ _ hne]
    exact haux profiles (fun _ _ => -1) hnd hu
  constructor
  · intro v hv
    rw [hmain, find?_eq_some_of_mem prefs f v hpnd hv]
    rfl
  · intro hnotin
    have hnone : prefs.find? (fun q => decide (q.1 = f)) = none := by
      rw [List.find?_eq_none]
      intro x hx
      simp only [decide_eq_true_eq]
      intro hxf
      exact hnotin (hxf ▸ List.mem_map_of_mem Prod.fst hx)
    rw [hmain, hnone]
    rfl

/-- Witness for C4 on a concrete two-user profile dictionary. -/
theorem user_feature_matrix_spec_witness :
    ((([('u', [(0, (2 : ℚ))]), ('v', [])] :
        List (Char × List (Nat × ℚ))).map Prod.fst).Nodup
      ∧ (('u', [(0, (2 : ℚ))]) ∈
          ([('u', [(0, (2 : ℚ))]), ('v', [])] : List (Char × List (Nat × ℚ))))
      ∧ (0 : Nat) ∈ [0, 1])
    ∧ ((∀ v : ℚ, ((0 : Nat), v) ∈ [((0 : Nat), (2 : ℚ))] →
          user_feature_matrix [('u', [(0, (2 : ℚ))]), ('v', [])] 'u' 0 = v)
      ∧ ((0 : Nat) ∉ ([((0 : Nat), (2 : ℚ))].map Prod.fst) →
          user_feature_matrix [('u', [(0, (2 : ℚ))]), ('v', [])] 'u' 0 = -1)) :=
  ⟨⟨by simp, List.mem_cons_self _ _, by decide⟩,
    user_feature_matrix_spec [('u', [(0, (2 : ℚ))]), ('v', [])] [0, 1]
      (by simp) 'u' [(0, (2 : ℚ))] (List.mem_cons_self _ _) (by simp) 0 (by decide)⟩

/-- Invariant of the inner loop: the entry count tracks the number of
accumulated rows, the count never exceeds the cap, a run that did not hit
the cap stays strictly below it, and every accumulated row either was
already present or is a well-formed row of the current movie. -/
theorem processLines_invariant (mid : PyStr) (users : List PyStr)
    (maxEntries : Nat) (ls : List PyStr) (acc : List RatingRow) (total : Nat)
    (hlen : acc.length = total) (hlt : total < maxEntries)
    (acc' : List RatingRow) (total' : Nat) (st : Bool)
    (h : processLines mid users maxEntries ls acc total = some (acc', total', st)) :
    acc'.length = total' ∧ total' ≤ maxEntries ∧ (st = false → total' < maxEntries)
    ∧ ∀ r ∈ acc', r ∈ acc ∨ (r.movie_id = mid ∧ rowWellFormed users r) := by
  induction ls generalizing acc total with
  | nil =>
    rw [processLines] at h
    obtain ⟨rfl, rfl, rfl⟩ : acc = acc' ∧ total = total' ∧ false = st := by
      cases h; exact ⟨rfl, rfl, rfl⟩
    exact ⟨hlen, hlt.le, fun _ => hlt, fun r hr => Or.inl hr⟩
  | cons line rest ih =>
    rw [processLines] at h
    split at h
    · rename_i h3
      split at h
      · rename_i huser
        split at h
        · exact Option.noConfusion h
        · rename_i rv hint
          split at h
          · rename_i hcap
            obtain ⟨rfl, rfl, rfl⟩ :
                acc ++ [⟨mid, (pySplit ',' (pyStrip line)).getD 0 [], rv,
                  (pySplit ',' (pyStrip line)).getD 2 []⟩] = acc'
                ∧ total + 1 = total' ∧ true = st := by
              cases h; exact ⟨rfl, rfl, rfl⟩
            refine ⟨by simp [hlen], by omega, by simp, ?_⟩
            intro r hr
            rcases List.mem_append.1 hr with hr1 | hr2
            · exact Or.inl hr1
            · have hreq := List.mem_singleton.1 hr2
              subst hreq
              exact Or.inr ⟨rfl, huser, line, h3, rfl, hint, rfl⟩
          · rename_i hcap
            have hres := ih _ _ (by simp [hlen]) (by omega) h
            refine ⟨hres.1, hres.2.1, hres.2.2.1, ?_⟩
            intro r hr
            rcases hres.2.2.2 r hr with hmem | hgood
            · rcases List.mem_append.1 hmem with hr1 | hr2
              · exact Or.inl hr1
              · have hreq := List.mem_singleton.1 hr2
                subst hreq
                exact Or.inr ⟨rfl, huser, line, h3, rfl, hint, rfl⟩
            · exact Or.inr hgood
      · exact ih _ _ hlen hlt h
    · exact ih _ _ hlen hlt h

/-- Invariant of the outer loop: on success the result has at most
`maxEntries` rows and every row beyond the initial accumulator is a
well-formed row of a movie in the movie set. -/
theorem loadRatings_invariant (movies users : List PyStr) (maxEntries : Nat)
    (files : List (List PyStr)) (acc : List RatingRow) (total : Nat)
    (hlen : acc.length = total) (hlt : total < maxEntries)
    (rows : List RatingRow)
    (h : loadRatings movies users maxEntries files acc total = some rows) :
    rows.length ≤ maxEntries
    ∧ ∀ r ∈ rows, r ∈ acc ∨ (r.movie_id ∈ movies ∧ rowWellFormed users r) := by
  induction files generalizing acc total with
  | nil =>
    rw [loadRatings] at h
    cases h
    exact ⟨by omega, fun r hr => Or.inl hr⟩
  | cons file files ih =>
    cases file with
    | nil =>
      rw [loadRatings] at h
      exact ih _ _ hlen hlt h
    | cons firstLine rest =>
      rw [loadRatings] at h
      split at h
      · rename_i hmov
        split at h
        · exact Option.noConfusion h
        · rename_i acc' total' st hproc
          have hinv := processLines_invariant _ _ _ _ _ _ hlen hlt _ _ _ hproc
          cases st with
          | true =>
            rw [if_pos rfl] at h
            cases h
            refine ⟨by omega, ?_⟩
            intro r hr
            rcases hinv.2.2.2 r hr with hmem | hgood
            · exact Or.inl hmem
            · exact Or.inr ⟨hgood.1 ▸ hmov, hgood.2⟩
          | false =>
            rw [if_neg (by simp)] at h
            have hres := ih _ _ hinv.1 (hinv.2.2.1 rfl) h
            refine ⟨hres.1, ?_⟩
            intro r hr
            rcases hres.2 r hr with hmem | hgood
            · rcases hinv.2.2.2 r hmem with hmem' | hgood'
              · exact Or.inl hmem'
              · exact Or.inr ⟨hgood'.1 ▸ hmov, hgood'.2⟩
            · exact Or.inr hgood
      · exact ih _ _ hlen hlt h

/-- C9 counterexample: the loader is not total on arbitrary file contents.
On a selected movie file whose rating line has three fields and a sampled
user but a non-numeric rating field, `int(rating)` raises (modelled as
`none`). -/
theorem loadRatings_not_total : ¬ loaderTotal := by
  intro h
  obtain ⟨rows, hrows⟩ :=
    h ["1".data] ["u".data] 1000000 [["1:".data, "u,x,d".data]]
  have hnone : loadRatings ["1".data] ["u".data] 1000000
      [["1:".data, "u,x,d".data]] [] 0 = none := by decide
  rw [hnone] at hrows
  exact Option.noConfusion hrows

/-- C9 (amended): starting from an empty accumulator with a positive entry
cap, a successful run of the loader accumulates at most `maxEntries` rows,
and every row has its movie id in the movie set, its user id in the sampled
user set, and its rating the Python `int` of the second comma-field of a
three-field line. -/
theorem loadRatings_cap_and_row_shape (movies users : List PyStr)
    (maxEntries : Nat) (hpos : 0 < maxEntries)
    (files : List (List PyStr)) (rows : List RatingRow)
    (h : loadRatings movies users maxEntries files [] 0 = some rows) :
    rows.length ≤ maxEntries
    ∧ ∀ r ∈ rows, r.movie_id ∈ movies ∧ rowWellFormed users r := by
  have hinv := loadRatings_invariant movies users maxEntries files [] 0 rfl hpos rows h
  refine ⟨hinv.1, ?_⟩
  intro r hr
  rcases hinv.2 r hr with hmem | hgood
  · exact absurd hmem (List.not_mem_nil r)
  · exact hgood

/-- Witness for the amended C9 on a concrete one-file input. -/
theorem loadRatings_cap_and_row_shape_witness :
    (0 < 2
      ∧ loadRatings ["1".data] ["u".data] 2 [["1:".data, "u,5,d".data]] [] 0
        = some [⟨"1".data, "u".data, 5, "d".data⟩])
    ∧ (([⟨"1".data, "u".data, 5, "d".data⟩] : List RatingRow).length ≤ 2
      ∧ ∀ r ∈ ([⟨"1".data, "u".data, 5, "d".data⟩] : List RatingRow),
          r.movie_id ∈ ["1".data] ∧ rowWellFormed ["u".data] r) :=
  ⟨⟨by decide, by decide⟩,
    loadRatings_cap_and_row_shape ["1".data] ["u".data] 2 (by decide)
      [["1:".data, "u,5,d".data]] [⟨"1".data, "u".data, 5, "d".data⟩] (by decide)⟩

/-- C7 counterexample: an input record is silently discarded by a
pipeline-specific check.  On a selected movie file with one well-formed
rating line and one malformed line, the loader succeeds with a single row
instead of one row per record or an error. -/
theorem loader_discards_malformed_record : ¬ loaderDiscardsNoRecord := by
  intro h
  have hload : loadRatings ["1".data] ["u".data] 1000000
      [["1:".data, "u,5,d".data, "u,5".data]] [] 0
      = some [⟨"1".data, "u".data, 5, "d".data⟩] := by decide
  have hlen := h ["1".data] ["u".data] 1000000 "1:".data
    ["u,5,d".data, "u,5".data] [⟨"1".data, "u".data, 5, "d".data⟩] hload
  exact absurd hlen (by decide)

/-- C7 (amended): the pipeline intercepts no exception, so a malformed
rating field surfaces as the library's error, but the loader does silently
discard records through its own checks: empty files, files whose movie id is
not in the movie set, lines that do not split into exactly three
comma-fields, and lines of non-sampled users are skipped without error. -/
theorem loader_skip_behavior :
    (∀ (movies users : List PyStr) (maxEntries : Nat)
        (files : List (List PyStr)) (acc : List RatingRow) (total : Nat),
        loadRatings movies users maxEntries (([]) :: files) acc total
          = loadRatings movies users maxEntries files acc total)
    ∧ (∀ (movies users : List PyStr) (maxEntries : Nat) (firstLine : PyStr)
        (rest : List PyStr) (files : List (List PyStr)) (acc : List RatingRow)
        (total : Nat), (pyStrip firstLine).dropLast ∉ movies →
        loadRatings movies users maxEntries ((firstLine :: rest) :: files) acc total
          = loadRatings movies users maxEntries files acc total)
    ∧ (∀ (mid : PyStr) (users : List PyStr) (maxEntries : Nat) (line : PyStr)
        (rest : List PyStr) (acc : List RatingRow) (total : Nat),
        (pySplit ',' (pyStrip line)).length ≠ 3 →
        processLines mid users maxEntries (line :: rest) acc total
          = processLines mid users maxEntries rest acc total)
    ∧ (∀ (mid : PyStr) (users : List PyStr) (maxEntries : Nat) (line : PyStr)
        (rest : List PyStr) (acc : List RatingRow) (total : Nat),
        (pySplit ',' (pyStrip line)).length = 3 →
        (pySplit ',' (pyStrip line)).getD 0 [] ∉ users →
        processLines mid users maxEntries (line :: rest) acc total
          = processLines mid users maxEntries rest acc total)
    ∧ (∀ (mid : PyStr) (users : List PyStr) (maxEntries : Nat) (line : PyStr)
        (rest : List PyStr) (acc : List RatingRow) (total : Nat),
        (pySplit ',' (pyStrip line)).length = 3 →
        (pySplit ',' (pyStrip line)).getD 0 [] ∈ users →
        pyInt? ((pySplit ',' (pyStrip line)).getD 1 []) = none →
        processLines mid users maxEntries (line :: rest) acc total = none) := by
  refine ⟨?_, ?_, ?_, ?_, ?_⟩
  · intro movies users maxEntries files acc total
    rw [loadRatings]
  · intro movies users maxEntries firstLine rest files acc total hmov
    rw [loadRatings, if_neg hmov]
  · intro mid users maxEntries line rest acc total h3
    rw [processLines, if_neg h3]
  · intro mid users maxEntries line rest acc total h3 huser
    rw [processLines, if_pos h3, if_neg huser]
  · intro mid users maxEntries line rest acc total h3 huser hint
    rw [processLines, if_pos h3, if_pos huser, hint]

/-- Witness for the amended C7 on concrete files and lines. -/
theorem loader_skip_behavior_witness :
    ((pyStrip "2:".data).dropLast ∉ ["1".data]
      ∧ (pySplit ',' (pyStrip "u,5".data)).length ≠ 3
      ∧ (pySplit ',' (pyStrip "v,5,d".data)).length = 3
      ∧ (pySplit ',' (pyStrip "v,5,d".data)).getD 0 [] ∉ ["u".data]
      ∧ (pySplit ',' (pyStrip "u,x,d".data)).length = 3
      ∧ (pySplit ',' (pyStrip "u,x,d".data)).getD 0 [] ∈ ["u".data]
      ∧ pyInt? ((pySplit ',' (pyStrip "u,x,d".data)).getD 1 []) = none)
    ∧ (loadRatings ["1".data] ["u".data] 9 (([]) :: []) [] 0
        = loadRatings ["1".data] ["u".data] 9 [] [] 0
      ∧ loadRatings ["1".data] ["u".data] 9 [["2:".data]] [] 0
        = loadRatings ["1".data] ["u".data] 9 [] [] 0
      ∧ processLines "1".data ["u".data] 9 ["u,5".data] [] 0
        = processLines "1".data ["u".data] 9 [] [] 0
      ∧ processLines "1".data ["u".data] 9 ["v,5,d".data] [] 0
        = processLines "1".data ["u".data] 9 [] [] 0
      ∧ processLines "1".data ["u".data] 9 ["u,x,d".data] [] 0 = none) :=
  ⟨⟨by decide, by decide, by decide, by decide, by decide, by decide, by decide⟩,
    loader_skip_behavior.1 ["1".data] ["u".data] 9 [] [] 0,
    loader_skip_behavior.2.1 ["1".data] ["u".data] 9 "2:".data [] [] [] 0 (by decide),
    loader_skip_behavior.2.2.1 "1".data ["u".data] 9 "u,5".data [] [] 0 (by decide),
    loader_skip_behavior.2.2.2.1 "1".data ["u".data] 9 "v,5,d".data [] [] 0
      (by decide) (by decide),
    loader_skip_behavior.2.2.2.2 "1".data ["u".data] 9 "u,x,d".data [] [] 0
      (by decide) (by decide) (by decide)⟩

/-- C5: with the user ids the pairwise distinct keys of the top-10k user
profiles and a sample drawn without replacement, the 30 sampled user ids are
pairwise distinct, each is a profile key, and every row loaded into
`ratings_data` has its user id in the sampled set and its movie id in the
`movie_features` key set. -/
theorem sampled_users_population (user_ids : List PyStr)
    (hkeys : user_ids.Nodup)
    (positions : List (Fin user_ids.length)) (hpos : positions.Nodup)
    (hk : positions.length = 30)
    (movies : List PyStr) (maxEntries : Nat) (h0 : 0 < maxEntries)
    (files : List (List PyStr)) (rows : List RatingRow)
    (hload : loadRatings movies (npChoiceNoReplace user_ids positions)
      maxEntries files [] 0 = some rows) :
    (npChoiceNoReplace user_ids positions).length = 30
    ∧ (npChoiceNoReplace user_ids positions).Nodup
    ∧ (∀ u ∈ npChoiceNoReplace user_ids positions, u ∈ user_ids)
    ∧ ∀ r ∈ rows, r.user_id ∈ npChoiceNoReplace user_ids positions
        ∧ r.movie_id ∈ movies := by
  have hlen : (npChoiceNoReplace user_ids positions).length = 30 := by
    rw [npChoiceNoReplace, List.length_map, hk]
  have hnd : (npChoiceNoReplace user_ids positions).Nodup :=
    List.Nodup.map (List.nodup_iff_injective_get.1 hkeys) hpos
  have hsub : ∀ u ∈ npChoiceNoReplace user_ids positions, u ∈ user_ids := by
    intro u hu
    obtain ⟨i, _, rfl⟩ := List.mem_map.1 hu
    exact List.get_mem _ _ _
  refine ⟨hlen, hnd, hsub, ?_⟩
  intro r hr
  have hinv := loadRatings_invariant _ _ _ _ _ _ rfl h0 _ hload
  rcases hinv.2 r hr with hmem | hgood
  · exact absurd hmem (List.not_mem_nil r)
  · exact ⟨hgood.2.1, hgood.1⟩

/-- Witness for C5 on a concrete 30-key profile dictionary, the identity
position draw, and an empty file list. -/
theorem sampled_users_population_witness :
    (sampleUserIds.Nodup
      ∧ (List.finRange sampleUserIds.length).Nodup
      ∧ (List.finRange sampleUserIds.length).length = 30
      ∧ 0 < 5
      ∧ loadRatings ["1".data]
          (npChoiceNoReplace sampleUserIds (List.finRange sampleUserIds.length))
          5 [] [] 0 = some [])
    ∧ ((npChoiceNoReplace sampleUserIds (List.finRange sampleUserIds.length)).length = 30
      ∧ (npChoiceNoReplace sampleUserIds (List.finRange sampleUserIds.length)).Nodup
      ∧ (∀ u ∈ npChoiceNoReplace sampleUserIds (List.finRange sampleUserIds.length),
          u ∈ sampleUserIds)
      ∧ ∀ r ∈ ([] : List RatingRow),
          r.user_id ∈ npChoiceNoReplace sampleUserIds (List.finRange sampleUserIds.length)
          ∧ r.movie_id ∈ ["1".data]) :=
  ⟨⟨by decide, by decide, by decide, by decide, rfl⟩,
    sampled_users_population sampleUserIds (by decide)
      (List.finRange sampleUserIds.length) (by decide) (by decide)
      ["1".data] 5 (by decide) [] [] rfl⟩

theorem npArgmax_lt_length (l : List ℚ) (h : l ≠ []) : npArgmax l < l.length := by
  induction l with
  | nil => exact absurd rfl h
  | cons x xs ih =>
    rw [npArgmax]
    split
    · simp
    · rename_i hall
      have hne : xs ≠ [] := by
        intro hcontra
        rw [hcontra] at hall
        exact hall rfl
      simpa using ih hne

theorem npArgmax_is_max (l : List ℚ) :
    ∀ j < l.length, l.getD j 0 ≤ l.getD (npArgmax l) 0 := by
  induction l with
  | nil => intro j hj; cases hj
  | cons x xs ih =>
    intro j hj
    rw [npArgmax]
    split
    · rename_i hall
      rw [List.getD_cons_zero]
      cases j with
      | zero => rw [List.getD_cons_zero]
      | succ k =>
        rw [List.getD_cons_succ]
        have hk : k < xs.length := by simpa using hj
        have hmem : xs.getD k 0 ∈ xs := by
          rw [List.getD_eq_getElem _ _ hk]
          exact List.getElem_mem hk
        exact of_decide_eq_true (List.all_eq_true.1 hall _ hmem)
    · rename_i hall
      have hx : ∃ y ∈ xs, x < y := by
        by_contra hnone
        push_neg at hnone
        refine hall (List.all_eq_true.2 ?_)
        intro y hy
        exact decide_eq_true (hnone y hy)
      obtain ⟨y, hy, hxy⟩ := hx
      obtain ⟨iy, hiy, hyeq⟩ := List.mem_iff_getElem.1 hy
      have hxmax : x < xs.getD (npArgmax xs) 0 := by
        refine lt_of_lt_of_le hxy ?_
        have := ih iy hiy
        rw [List.getD_eq_getElem _ _ hiy, hyeq] at this
        exact this
      rw [List.getD_cons_succ]
      cases j with
      | zero => rw [List.getD_cons_zero]; exact hxmax.le
      | succ k =>
        rw [List.getD_cons_succ]
        exact ih k (by simpa using hj)

theorem npArgmax_first (l : List ℚ) :
    ∀ j < npArgmax l, l.getD j 0 < l.getD (npArgmax l) 0 := by
  induction l with
  | nil => intro j hj; rw [npArgmax] at hj; cases hj
  | cons x xs ih =>
    intro j hj
    rw [npArgmax] at hj ⊢
    by_cases hall : (xs.all fun y => decide (y ≤ x)) = true
    · rw [if_pos hall] at hj
      exact absurd hj (Nat.not_lt_zero j)
    · rw [if_neg hall] at hj ⊢
      have hx : ∃ y ∈ xs, x < y := by
        by_contra hnone
        push_neg at hnone
        refine hall (List.all_eq_true.2 ?_)
        intro y hy
        exact decide_eq_true (hnone y hy)
      obtain ⟨y, hy, hxy⟩ := hx
      obtain ⟨iy, hiy, hyeq⟩ := List.mem_iff_getElem.1 hy
      have hxmax : x < xs.getD (npArgmax xs) 0 := by
        refine lt_of_lt_of_le hxy ?_
        have := npArgmax_is_max xs iy hiy
        rw [List.getD_eq_getElem _ _ hiy, hyeq] at this
        exact this
      rw [List.getD_cons_succ]
      cases j with
      | zero => rw [List.getD_cons_zero]; exact hxmax
      | succ k =>
        rw [List.getD_cons_succ]
        exact ih k (by omega)

/-- Composing `getD` with `map` below the length bound. -/
theorem getD_map_rat (f : Nat → ℚ) (l : List Nat) (j : Nat) (hj : j < l.length) :
    (l.map f).getD j 0 = f (l.getD j 0) := by
  induction l generalizing j with
  | nil => cases hj
  | cons x xs ih =>
    cases j with
    | zero => rfl
    | succ k =>
      rw [List.map_cons, List.getD_cons_succ, List.getD_cons_succ]
      exact ih k (by simpa using hj)

/-- The grid element at a position. -/
theorem kRange_getD (j : Nat) (hj : j < 19) : kRange.getD j 0 = 2 + j := by
  have hall : ∀ j' < 19, kRange.getD j' 0 = 2 + j' := by decide
  exact hall j hj

/-- The silhouette score list evaluated at a grid position. -/
theorem kRange_score_getD (sil : Nat → ℚ) (j : Nat) (hj : j < 19) :
    (kRange.map sil).getD j 0 = sil (2 + j) := by
  have hklen : kRange.length = 19 := rfl
  have hj' : j < kRange.length := by rw [hklen]; exact hj
  rw [getD_map_rat sil kRange j hj', kRange_getD j hj]

/-- C10: the K-Means cluster count is chosen as the k in `2..20` that
maximizes the silhouette score, taking the smallest such k when several tie
(first argmax). -/
theorem best_k_spec (sil : Nat → ℚ) :
    best_k sil ∈ kRange
    ∧ (∀ k ∈ kRange, sil k ≤ sil (best_k sil))
    ∧ (∀ k ∈ kRange, k < best_k sil → sil k < sil (best_k sil)) := by
  have hlen : (kRange.map sil).length = 19 := by
    rw [List.length_map]
    rfl
  have hne : kRange.map sil ≠ [] := by
    intro hcontra
    rw [hcontra] at hlen
    exact absurd hlen (by decide)
  have hA : npArgmax (kRange.map sil) < 19 := by
    have := npArgmax_lt_length _ hne
    rw [hlen] at this
    exact this
  have hbest : best_k sil = 2 + npArgmax (kRange.map sil) := by
    rw [best_k]
    exact kRange_getD _ hA
  have hbestval : sil (best_k sil) = (kRange.map sil).getD (npArgmax (kRange.map sil)) 0 := by
    rw [hbest, kRange_score_getD sil _ hA]
  refine ⟨?_, ?_, ?_⟩
  · rw [hbest]
    exact List.mem_range'_1.2 ⟨by omega, by omega⟩
  · intro k hk
    obtain ⟨hk2, hk21⟩ := List.mem_range'_1.1 hk
    have hj : k - 2 < 19 := by omega
    have hkval : sil k = (kRange.map sil).getD (k - 2) 0 := by
      rw [kRange_score_getD sil _ hj]
      congr 1
      omega
    rw [hkval, hbestval]
    exact npArgmax_is_max _ _ (by rw [hlen]; exact hj)
  · intro k hk hlt
    obtain ⟨hk2, hk21⟩ := List.mem_range'_1.1 hk
    have hj : k - 2 < 19 := by omega
    have hkval : sil k = (kRange.map sil).getD (k - 2) 0 := by
      rw [kRange_score_getD sil _ hj]
      congr 1
      omega
    rw [hkval, hbestval]
    refine npArgmax_first _ _ ?_
    rw [hbest] at hlt
    omega

theorem mem_get_redundant_pairs {α : Type} [Inhabited α] (cols : List α)
    (p : α × α) :
    p ∈ get_redundant_pairs cols ↔
      ∃ i j : Nat, j ≤ i ∧ i < cols.length
        ∧ p = (cols.getD i default, cols.getD j default) := by
  unfold get_redundant_pairs
  rw [List.mem_flatMap]
  constructor
  · rintro ⟨i, hi, hp⟩
    rw [List.mem_range] at hi
    obtain ⟨j, hj, hpe⟩ := List.mem_map.1 hp
    rw [List.mem_range] at hj
    exact ⟨i, j, by omega, hi, hpe.symm⟩
  · rintro ⟨i, j, hji, hi, rfl⟩
    exact ⟨i, List.mem_range.2 hi, List.mem_map.2 ⟨j, List.mem_range.2 (by omega), rfl⟩⟩

theorem unstack_map_fst {α : Type} (cols : List α) (corr : α → α → ℚ) :
    (unstack cols corr).map Prod.fst = cols ×ˢ cols := by
  unfold unstack
  rw [List.map_map]
  exact List.map_id _

theorem mem_unstack {α : Type} (cols : List α) (corr : α → α → ℚ)
    (e : (α × α) × ℚ) :
    e ∈ unstack cols corr ↔
      e.1.1 ∈ cols ∧ e.1.2 ∈ cols ∧ e = ((e.1.1, e.1.2), corr e.1.2 e.1.1) := by
  unfold unstack
  constructor
  · intro he
    obtain ⟨p, hp, hpe⟩ := List.mem_map.1 he
    obtain ⟨a, b⟩ := p
    obtain ⟨ha, hb⟩ := List.pair_mem_product.1 hp
    rw [← hpe]
    exact ⟨ha, hb, rfl⟩
  · rintro ⟨h1, h2, he⟩
    rw [he]
    exact List.mem_map.2 ⟨(e.1.1, e.1.2), List.pair_mem_product.2 ⟨h1, h2⟩, rfl⟩

theorem redundant_iff_indexOf {α : Type} [DecidableEq α] [Inhabited α]
    (cols : List α) (hnd : cols.Nodup) (a b : α) (ha : a ∈ cols) (hb : b ∈ cols) :
    (a, b) ∈ get_redundant_pairs cols ↔ cols.indexOf b ≤ cols.indexOf a := by
  rw [mem_get_redundant_pairs]
  constructor
  · rintro ⟨i, j, hji, hi, heq⟩
    have hj : j < cols.length := by omega
    have ha' : a = cols.getD i default := congrArg Prod.fst heq
    have hb' : b = cols.getD j default := congrArg Prod.snd heq
    rw [List.getD_eq_getElem _ _ hi] at ha'
    rw [List.getD_eq_getElem _ _ hj] at hb'
    rw [ha', hb', List.indexOf_getElem hnd i hi, List.indexOf_getElem hnd j hj]
    exact hji
  · intro hle
    have hia : cols.indexOf a < cols.length := List.indexOf_lt_length.2 ha
    have hib : cols.indexOf b < cols.length := List.indexOf_lt_length.2 hb
    refine ⟨cols.indexOf a, cols.indexOf b, hle, hia, ?_⟩
    rw [List.getD_eq_getElem _ _ hia, List.getD_eq_getElem _ _ hib,
      List.getElem_indexOf hia, List.getElem_indexOf hib]

theorem mem_keptEntries {α : Type} [DecidableEq α] [Inhabited α]
    (cols : List α) (hnd : cols.Nodup) (corr : α → α → ℚ) (e : (α × α) × ℚ) :
    e ∈ keptEntries cols corr ↔
      e.1.1 ∈ cols ∧ e.1.2 ∈ cols
      ∧ e = ((e.1.1, e.1.2), corr e.1.2 e.1.1)
      ∧ cols.indexOf e.1.1 < cols.indexOf e.1.2 := by
  unfold keptEntries
  rw [List.mem_filter, mem_unstack]
  constructor
  · rintro ⟨⟨h1, h2, heq⟩, hkeep⟩
    have hnot : (e.1.1, e.1.2) ∉ get_redundant_pairs cols := of_decide_eq_true hkeep
    refine ⟨h1, h2, heq, ?_⟩
    by_contra hge
    push_neg at hge
    exact hnot ((redundant_iff_indexOf cols hnd e.1.1 e.1.2 h1 h2).2 hge)
  · rintro ⟨h1, h2, heq, hlt⟩
    refine ⟨⟨h1, h2, heq⟩, decide_eq_true ?_⟩
    intro hmem
    have := (redundant_iff_indexOf cols hnd e.1.1 e.1.2 h1 h2).1 hmem
    omega

theorem keptEntries_firsts_nodup {α : Type} [DecidableEq α] [Inhabited α]
    (cols : List α) (hnd : cols.Nodup) (corr : α → α → ℚ) :
    ((keptEntries cols corr).map Prod.fst).Nodup := by
  have hsub : ((keptEntries cols corr).map Prod.fst).Sublist
      ((unstack cols corr).map Prod.fst) :=
    List.Sublist.map _ (List.filter_sublist _)
  rw [unstack_map_fst] at hsub
  exact hsub.nodup (hnd.product hnd)

theorem pair_mem_kept_firsts {α : Type} [DecidableEq α] [Inhabited α]
    (cols : List α) (hnd : cols.Nodup) (corr : α → α → ℚ) (a b : α) :
    (a, b) ∈ (keptEntries cols corr).map Prod.fst ↔
      a ∈ cols ∧ b ∈ cols ∧ cols.indexOf a < cols.indexOf b := by
  rw [List.mem_map]
  constructor
  · rintro ⟨e, he, hfst⟩
    rw [mem_keptEntries cols hnd corr e] at he
    have h1 : e.1.1 = a := congrArg Prod.fst hfst
    have h2 : e.1.2 = b := congrArg Prod.snd hfst
    rw [h1, h2] at he
    exact ⟨he.1, he.2.1, he.2.2.2⟩
  · rintro ⟨ha, hb, hlt⟩
    refine ⟨((a, b), corr b a), ?_, rfl⟩
    rw [mem_keptEntries cols hnd corr]
    exact ⟨ha, hb, rfl, hlt⟩

/-- Among the kept label pairs, exactly one orientation of each distinct
unordered off-diagonal pair occurs. -/
theorem kept_pair_once {α : Type} [DecidableEq α] [Inhabited α]
    (cols : List α) (hnd : cols.Nodup) (corr : α → α → ℚ) (a b : α)
    (ha : a ∈ cols) (hb : b ∈ cols) (hab : a ≠ b) :
    ((a, b) ∈ (keptEntries cols corr).map Prod.fst
      ∧ (b, a) ∉ (keptEntries cols corr).map Prod.fst)
    ∨ ((b, a) ∈ (keptEntries cols corr).map Prod.fst
      ∧ (a, b) ∉ (keptEntries cols corr).map Prod.fst) := by
  have hne : cols.indexOf a ≠ cols.indexOf b :=
    fun h => hab ((List.indexOf_inj ha hb).1 h)
  rcases Nat.lt_or_ge (cols.indexOf a) (cols.indexOf b) with hlt | hge
  · refine Or.inl ⟨(pair_mem_kept_firsts cols hnd corr a b).2 ⟨ha, hb, hlt⟩, ?_⟩
    rw [pair_mem_kept_firsts cols hnd corr b a]
    rintro ⟨_, _, hlt2⟩
    omega
  · have hlt : cols.indexOf b < cols.indexOf a := by omega
    refine Or.inr ⟨(pair_mem_kept_firsts cols hnd corr b a).2 ⟨hb, ha, hlt⟩, ?_⟩
    rw [pair_mem_kept_firsts cols hnd corr a b]
    rintro ⟨_, _, hlt2⟩
    omega

/-- C6: `get_redundant_pairs` returns exactly the diagonal and
lower-triangle label pairs; after dropping them each distinct unordered
off-diagonal pair is represented exactly once; `get_top_correlations` is the
first `n` entries of the kept entries sorted by decreasing value, so its
values dominate all remaining kept values, and `get_bottom_correlations` is
the first `n` entries sorted by increasing value, dominated by all remaining
kept values. -/
theorem correlation_ranking_spec {α : Type} [DecidableEq α] [Inhabited α]
    (cols : List α) (corr : α → α → ℚ) (n : Nat)
    (hnd : cols.Nodup) (hsym : ∀ a b, corr a b = corr b a) :
    (∀ p : α × α, p ∈ get_redundant_pairs cols ↔
      ∃ i j : Nat, j ≤ i ∧ i < cols.length
        ∧ p = (cols.getD i default, cols.getD j default))
    ∧ (∀ e ∈ keptEntries cols corr,
        e.1.1 ∈ cols ∧ e.1.2 ∈ cols ∧ e.1.1 ≠ e.1.2 ∧ e.2 = corr e.1.1 e.1.2)
    ∧ ((keptEntries cols corr).map Prod.fst).Nodup
    ∧ (∀ a b : α, a ∈ cols → b ∈ cols → a ≠ b →
        ((a, b) ∈ (keptEntries cols corr).map Prod.fst
          ∧ (b, a) ∉ (keptEntries cols corr).map Prod.fst)
        ∨ ((b, a) ∈ (keptEntries cols corr).map Prod.fst
          ∧ (a, b) ∉ (keptEntries cols corr).map Prod.fst))
    ∧ List.Sorted entryDesc (get_top_correlations cols corr n)
    ∧ (List.insertionSort entryDesc (keptEntries cols corr)).Perm
        (keptEntries cols corr)
    ∧ get_top_correlations cols corr n
        = (List.insertionSort entryDesc (keptEntries cols corr)).take n
    ∧ (∀ x ∈ get_top_correlations cols corr n,
        ∀ y ∈ (List.insertionSort entryDesc (keptEntries cols corr)).drop n,
          y.2 ≤ x.2)
    ∧ List.Sorted entryAsc (get_bottom_correlations cols corr n)
    ∧ (List.insertionSort entryAsc (keptEntries cols corr)).Perm
        (keptEntries cols corr)
    ∧ get_bottom_correlations cols corr n
        = (List.insertionSort entryAsc (keptEntries cols corr)).take n
    ∧ (∀ x ∈ get_bottom_correlations cols corr n,
        ∀ y ∈ (List.insertionSort entryAsc (keptEntries cols corr)).drop n,
          x.2 ≤ y.2) := by
  refine ⟨mem_get_redundant_pairs cols, ?_, keptEntries_firsts_nodup cols hnd corr,
    kept_pair_once cols hnd corr, ?_, ?_, rfl, ?_, ?_, ?_, rfl, ?_⟩
  · intro e he
    rw [mem_keptEntries cols hnd corr e] at he
    refine ⟨he.1, he.2.1, ?_, ?_⟩
    · intro hcontra
      have := he.2.2.2
      rw [hcontra] at this
      exact lt_irrefl _ this
    · have hv : e.2 = corr e.1.2 e.1.1 := congrArg Prod.snd he.2.2.1
      rw [hv, hsym]
  · exact List.Pairwise.sublist (List.take_sublist n _)
      (List.sorted_insertionSort entryDesc _)
  · exact List.perm_insertionSort entryDesc _
  · intro x hx y hy
    exact (List.sorted_insertionSort entryDesc
      (keptEntries cols corr)).rel_of_mem_take_of_mem_drop hx hy
  · exact List.Pairwise.sublist (List.take_sublist n _)
      (List.sorted_insertionSort entryAsc _)
  · exact List.perm_insertionSort entryAsc _
  · intro x hx y hy
    exact (List.sorted_insertionSort entryAsc
      (keptEntries cols corr)).rel_of_mem_take_of_mem_drop hx hy

/-- Witness for C6 on a concrete two-column correlation matrix. -/
theorem correlation_ranking_spec_witness :
    (([0, 1] : List Nat).Nodup ∧ ∀ a b : Nat, corrEx a b = corrEx b a)
    ∧ ((∀ p : Nat × Nat, p ∈ get_redundant_pairs [0, 1] ↔
        ∃ i j : Nat, j ≤ i ∧ i < ([0, 1] : List Nat).length
          ∧ p = (([0, 1] : List Nat).getD i default,
              ([0, 1] : List Nat).getD j default))
      ∧ (∀ e ∈ keptEntries [0, 1] corrEx,
          e.1.1 ∈ ([0, 1] : List Nat) ∧ e.1.2 ∈ ([0, 1] : List Nat)
            ∧ e.1.1 ≠ e.1.2 ∧ e.2 = corrEx e.1.1 e.1.2)
      ∧ ((keptEntries [0, 1] corrEx).map Prod.fst).Nodup
      ∧ (∀ a b : Nat, a ∈ ([0, 1] : List Nat) → b ∈ ([0, 1] : List Nat) → a ≠ b →
          ((a, b) ∈ (keptEntries [0, 1] corrEx).map Prod.fst
            ∧ (b, a) ∉ (keptEntries [0, 1] corrEx).map Prod.fst)
          ∨ ((b, a) ∈ (keptEntries [0, 1] corrEx).map Prod.fst
            ∧ (a, b) ∉ (keptEntries [0, 1] corrEx).map Prod.fst))
      ∧ List.Sorted entryDesc (get_top_correlations [0, 1] corrEx 1)
      ∧ (List.insertionSort entryDesc (keptEntries [0, 1] corrEx)).Perm
          (keptEntries [0, 1] corrEx)
      ∧ get_top_correlations [0, 1] corrEx 1
          = (List.insertionSort entryDesc (keptEntries [0, 1] corrEx)).take 1
      ∧ (∀ x ∈ get_top_correlations [0, 1] corrEx 1,
          ∀ y ∈ (List.insertionSort entryDesc (keptEntries [0, 1] corrEx)).drop 1,
            y.2 ≤ x.2)
      ∧ List.Sorted entryAsc (get_bottom_correlations [0, 1] corrEx 1)
      ∧ (List.insertionSort entryAsc (keptEntries [0, 1] corrEx)).Perm
          (keptEntries [0, 1] corrEx)
      ∧ get_bottom_correlations [0, 1] corrEx 1
          = (List.insertionSort entryAsc (keptEntries [0, 1] corrEx)).take 1
      ∧ (∀ x ∈ get_bottom_correlations [0, 1] corrEx 1,
          ∀ y ∈ (List.insertionSort entryAsc (keptEntries [0, 1] corrEx)).drop 1,
            x.2 ≤ y.2)) :=
  ⟨⟨by decide, fun a b => rfl⟩,
    correlation_ranking_spec [0, 1] corrEx 1 (by decide) (fun a b => rfl)⟩

/-- Witness for C10 at a concrete silhouette score profile. -/
theorem best_k_spec_witness :
    (3 ∈ kRange ∧ 3 < best_k silEx)
    ∧ (best_k silEx ∈ kRange
      ∧ silEx 3 ≤ silEx (best_k silEx)
      ∧ silEx 3 < silEx (best_k silEx)) :=
  ⟨⟨by decide, by decide⟩,
    (best_k_spec silEx).1,
    (best_k_spec silEx).2.1 3 (by decide),
    (best_k_spec silEx).2.2 3 (by decide) (by decide)⟩

end NetflixSpec
